import Mathlib

set_option maxHeartbeats 1000000

namespace Nutils

/-! Shallow embedding of the nutils solver module, src/nutils/solver.py.
Scalars are modelled as rationals.  The external collaborators that are not
part of the repository sources, namely the symbolic function module, the
numeric quadrature backend and the constrained linear-algebra backend, are
modelled from the specification: symbolic integrands become a small
expression AST, integration and the constrained solve become oracle
functions carried in a record, exactly at the call boundaries the source
uses. -/

/-- Numeric vector, the value of a rank-1 array. -/
abbrev Vec := List ℚ

/-- Numeric matrix, the value of a rank-2 array, row major. -/
abbrev Mat := List Vec

/-- Key of one Integral entry: an opaque domain identity paired with a
quadrature scheme identifier, mirroring the pair of cache.HashableAny debug
domain and ischeme used as dict key. -/
abbrev Key := ℕ × String

/-- Argument value map: an ordered overlay, looked up front to back,
mirroring collections.ChainMap built by the solver. -/
abbrev ArgMap := List (String × Vec)

def addVec (a b : Vec) : Vec := List.zipWith (· + ·) a b

def subVec (a b : Vec) : Vec := List.zipWith (· - ·) a b

def negVec (a : Vec) : Vec := a.map Neg.neg

def smulVec (c : ℚ) (a : Vec) : Vec := a.map (c * ·)

def zeroVec (n : ℕ) : Vec := List.replicate n 0

def dotQ (a b : Vec) : ℚ := (List.zipWith (· * ·) a b).sum

/-- Matrix vector product of the external linear-algebra backend,
jac.matvec in the source. -/
def matvecQ (m : Mat) (v : Vec) : Vec := m.map (fun row => dotQ row v)

def addMat (a b : Mat) : Mat := List.zipWith addVec a b

def zeroMat (p q : ℕ) : Mat := List.replicate p (zeroVec q)

def idMat (n : ℕ) : Mat :=
  (List.range n).map (fun i => (List.range n).map (fun j => if i = j then (1 : ℚ) else 0))

/-- Restriction of a vector to the free entries, the numpy indexing
res applied to the negated constraint mask in the source. -/
def freePart (mask : List Bool) (v : Vec) : Vec :=
  (v.zip mask).filterMap (fun xz => if xz.2 then none else some xz.1)

def lookupArg (s : String) (m : ArgMap) : Option Vec :=
  (m.find? (fun p => decide (p.1 = s))).map Prod.snd

def prodL (l : List ℕ) : ℕ := l.foldr (· * ·) 1

/-- Modelled from the spec: rank-1 Symbolic Array of the external function
module, an immutable expression node representing an array valued function
of named arguments.  Constructors cover constants, the Named Argument node,
addition, scaling by a scalar and elementwise product; the last supplies
the nonlinearity the solver framework exercises. -/
inductive FnV : Type where
  | const (v : Vec)
  | arg (name : String) (n : ℕ)
  | add (a b : FnV)
  | smul (c : ℚ) (a : FnV)
  | mul (a b : FnV)
deriving DecidableEq

/-- Modelled from the spec: rank-2 Symbolic Array, as produced by taking the
derivative of a rank-1 array with respect to a rank-1 Named Argument.  The
dmul node is the broadcast product of a rank-1 factor with a rank-2 factor
arising from the product rule. -/
inductive FnM : Type where
  | const (m : Mat)
  | add (a b : FnM)
  | smul (c : ℚ) (a : FnM)
  | dmul (a : FnV) (g : FnM)
deriving DecidableEq

instance : Add FnV := ⟨FnV.add⟩

instance : SMul ℚ FnV := ⟨FnV.smul⟩

instance : Add FnM := ⟨FnM.add⟩

instance : SMul ℚ FnM := ⟨FnM.smul⟩

/-- Modelled from the spec: declared shape of a rank-1 symbolic array. -/
def shapeV : FnV → List ℕ
  | .const v => [v.length]
  | .arg _ n => [n]
  | .add a _ => shapeV a
  | .smul _ a => shapeV a
  | .mul a _ => shapeV a

/-- Modelled from the spec: numeric evaluation of a rank-1 symbolic array at
an argument value map. -/
def evalV (args : ArgMap) : FnV → Vec
  | .const v => v
  | .arg s n => (lookupArg s args).getD (zeroVec n)
  | .add a b => addVec (evalV args a) (evalV args b)
  | .smul c a => smulVec c (evalV args a)
  | .mul a b => List.zipWith (· * ·) (evalV args a) (evalV args b)

/-- Modelled from the spec: numeric evaluation of a rank-2 symbolic array. -/
def evalM (args : ArgMap) : FnM → Mat
  | .const m => m
  | .add a b => addMat (evalM args a) (evalM args b)
  | .smul c a => (evalM args a).map (smulVec c)
  | .dmul a g => List.zipWith smulVec (evalV args a) (evalM args g)

/-- Modelled from the spec: structural occurrence of the resolved Named
Argument node in a rank-1 expression tree, target membership in the
serialized node set of the source. -/
def containsV (s : String) (n : ℕ) : FnV → Bool
  | .const _ => false
  | .arg s' n' => decide (s' = s) && decide (n' = n)
  | .add a b => containsV s n a || containsV s n b
  | .smul _ a => containsV s n a
  | .mul a b => containsV s n a || containsV s n b

/-- Modelled from the spec: structural occurrence of the resolved Named
Argument node in a rank-2 expression tree. -/
def containsM (s : String) (n : ℕ) : FnM → Bool
  | .const _ => false
  | .add a b => containsM s n a || containsM s n b
  | .smul _ a => containsM s n a
  | .dmul a g => containsV s n a || containsM s n g

/-- Modelled from the spec: argument substitution, function.replace_arguments,
replacing every Named Argument node whose name is bound in the mapping. -/
def replaceV (σ : List (String × FnV)) : FnV → FnV
  | .const v => .const v
  | .arg s n => match (σ.find? (fun p => decide (p.1 = s))).map Prod.snd with
      | some f => f
      | none => .arg s n
  | .add a b => .add (replaceV σ a) (replaceV σ b)
  | .smul c a => .smul c (replaceV σ a)
  | .mul a b => .mul (replaceV σ a) (replaceV σ b)

/-- Modelled from the spec: symbolic derivative of a rank-1 array with
respect to the resolved rank-1 Named Argument of name s and length n.  The
derivative of the argument itself is the identity matrix, of any other leaf
a zero matrix, and linear nodes commute with differentiation while the
elementwise product follows the product rule. -/
def derivF (s : String) (n : ℕ) : FnV → FnM
  | .const v => .const (zeroMat v.length n)
  | .arg s' m => if s' = s ∧ m = n then .const (idMat m) else .const (zeroMat m n)
  | .add a b => .add (derivF s n a) (derivF s n b)
  | .smul c a => .smul c (derivF s n a)
  | .mul a b => .add (.dmul a (derivF s n b)) (.dmul b (derivF s n a))

/-- Modelled from the spec: pre-order traversal returning the first Named
Argument with the given name, the Found-raising walk of function.edit. -/
def findArgV (name : String) : FnV → Option (String × ℕ)
  | .const _ => none
  | .arg s n => if s = name then some (s, n) else none
  | .add a b => match findArgV name a with
      | some x => some x
      | none => findArgV name b
  | .smul _ a => findArgV name a
  | .mul a b => match findArgV name a with
      | some x => some x
      | none => findArgV name b

/-- All Named Argument occurrences of a rank-1 tree in traversal order. -/
def argsOfV : FnV → List (String × ℕ)
  | .const _ => []
  | .arg s n => [(s, n)]
  | .add a b => argsOfV a ++ argsOfV b
  | .smul _ a => argsOfV a
  | .mul a b => argsOfV a ++ argsOfV b

/-- Postponed integral, a dict from domain and scheme keys to symbolic
integrands together with the declared result shape, class Integral of the
source.  The entry list is in dict insertion order with unique keys. -/
structure Integral (α : Type) : Type where
  entries : List (Key × α)
  shape : List ℕ
deriving DecidableEq

/-- Dict lookup on the entry list: first binding of the key. -/
def lookupI {α : Type} (k : Key) : List (Key × α) → Option α
  | [] => none
  | p :: t => if p.1 = k then some p.2 else lookupI k t

/-- Dict item assignment: replace the value at an existing key in place,
append a fresh binding otherwise. -/
def setI {α : Type} (k : Key) (v : α) : List (Key × α) → List (Key × α)
  | [] => [(k, v)]
  | p :: t => if p.1 = k then (k, v) :: t else p :: setI k v t

/-- Integral with one entry, Integral.__init__ of the source: shape is the
integrand's shape. -/
def Integral.of (integrand : FnV) (domain : ℕ) (ischeme : String) : Integral FnV :=
  ⟨[((domain, ischeme), integrand)], shapeV integrand⟩

/-- Integral.empty of the source: no entries, given declared shape. -/
def Integral.empty {α : Type} (shape : List ℕ) : Integral α :=
  ⟨[], shape⟩

/-- One entry of the right operand folded into the accumulated dict of
Integral.__add__: add symbolically on a shared key, insert unchanged on a
fresh key. -/
def addStep {α : Type} [Add α] (acc : List (Key × α)) (p : Key × α) : List (Key × α) :=
  match lookupI p.1 acc with
  | some w => setI p.1 (w + p.2) acc
  | none => setI p.1 p.2 acc

/-- Integral.__add__ of the source: start from the left operand's entries,
then fold the right operand's entries in, adding integrands symbolically on
a shared key and inserting the entry unchanged on a fresh key.  The shape
is the left operand's shape; the source asserts the shapes agree. -/
def Integral.add {α : Type} [Add α] (a b : Integral α) : Integral α :=
  ⟨b.entries.foldl addStep a.entries, a.shape⟩

/-- Integral.__mul__ by a scalar: scale every integrand, same keys. -/
def Integral.scale {α : Type} [SMul ℚ α] (a : Integral α) (c : ℚ) : Integral α :=
  ⟨a.entries.map (fun p => (p.1, c • p.2)), a.shape⟩

/-- Integral.__neg__ of the source: multiplication by -1. -/
def Integral.negI {α : Type} [SMul ℚ α] (a : Integral α) : Integral α :=
  a.scale (-1)

/-- Integral.__sub__ of the source: addition of the negation. -/
def Integral.sub {α : Type} [Add α] [SMul ℚ α] (a b : Integral α) : Integral α :=
  a.add b.negI

/-- Integral.__truediv__ of the source: multiplication by the inverse. -/
def Integral.div {α : Type} [SMul ℚ α] (a : Integral α) (c : ℚ) : Integral α :=
  a.scale (1 / c)

/-- Integral.replace of the source: argument substitution in every entry,
shape unchanged. -/
def Integral.replace (a : Integral FnV) (σ : List (String × FnV)) : Integral FnV :=
  ⟨a.entries.map (fun p => (p.1, replaceV σ p.2)), a.shape⟩

/-- Occurrence test for the resolved target argument inside an integrand. -/
class HasArg (α : Type) : Type where
  occurs : String → ℕ → α → Bool

instance : HasArg FnV := ⟨containsV⟩

instance : HasArg FnM := ⟨containsM⟩

/-- Integral.contains of the source: the target occurs in some entry. -/
def Integral.contains {α : Type} [HasArg α] (a : Integral α) (s : String) (n : ℕ) : Bool :=
  a.entries.any (fun p => HasArg.occurs s n p.2)

def findArgVs (name : String) : List FnV → Option (String × ℕ)
  | [] => none
  | f :: t => match findArgV name f with
      | some x => some x
      | none => findArgVs name t

/-- Flattening step of _find_argument: an Integral input contributes its
integrand values in entry order, a plain function contributes itself. -/
def flattenInput : (Integral FnV ⊕ FnV) → List FnV
  | .inl I => I.entries.map Prod.snd
  | .inr f => [f]

/-- _find_argument of the source: flatten the inputs, then walk each in
order and return the first Named Argument carrying the requested name.
The none result models the ValueError target-not-found raise. -/
def findArgument (name : String) (funcs : List (Integral FnV ⊕ FnV)) : Option (String × ℕ) :=
  findArgVs name (funcs.flatMap flattenInput)

/-- Integral.derivative of the source: resolve the target inside the
integral, then differentiate every entry; the shape grows by the target's
shape.  The none result models the raise when the target is absent. -/
def Integral.derivative (a : Integral FnV) (target : String) : Option (Integral FnM) :=
  match findArgument target [Sum.inl a] with
  | none => none
  | some t => some ⟨a.entries.map (fun p => (p.1, derivF t.1 t.2 p.2)), a.shape ++ [t.2]⟩

/-- Symbolic zeros of a given shape, function.zeros for rank 1. -/
def zerosFnV (shape : List ℕ) : FnV := .const (zeroVec (prodL shape))

/-- Symbolic zeros of a given shape, function.zeros for rank 2. -/
def zerosFnM (shape : List ℕ) : FnM :=
  .const (zeroMat (shape.headD 0) ((shape.drop 1).headD 0))

/-- Sum of a list of equal-length vectors, numpy.sum along axis 0 with the
zero vector of the declared length as base. -/
def sumVecs (n : ℕ) (l : List Vec) : Vec := l.foldr addVec (zeroVec n)

/-- Integral.eval of the source, generic in the integrand type: integrate
every entry through the external quadrature backend and sum the numeric
contributions. -/
def Integral.eval {α : Type} (integ : Key → α → ArgMap → Vec) (a : Integral α)
    (args : ArgMap) : Vec :=
  sumVecs (prodL a.shape) (a.entries.map (fun p => integ p.1 p.2 args))

/-- Integral.multieval of the source for a homogeneous list of integrals:
union the key sets once, integrate for each key every integral's integrand,
substituting symbolic zeros where an integral lacks the key, and sum the
per-key rows along axis 0. -/
def Integral.multievalList {α : Type} (integ : Key → α → ArgMap → Vec)
    (zeroOf : List ℕ → α) (Is : List (Integral α)) (args : ArgMap) : List Vec :=
  let keys := (Is.flatMap (fun I => I.entries.map Prod.fst)).dedup
  let retvals := keys.map (fun k =>
    Is.map (fun I => integ k ((lookupI k I.entries).getD (zeroOf I.shape)) args))
  retvals.foldr (List.zipWith addVec) (Is.map (fun I => zeroVec (prodL I.shape)))

/-- External collaborators of the solver, modelled from the spec section 6:
a deterministic quadrature evaluation for ranks 1 and 2, the constrained
linear solve, the residual norm, the finiteness test and the square root of
the numeric backend. -/
structure SolverExt : Type where
  integV : Key → FnV → ArgMap → Vec
  integM : Key → FnM → ArgMap → Mat
  solveLin : Mat → Vec → List (Option ℚ) → Vec
  norm : Vec → ℚ
  isfinite : ℚ → Bool
  sqrt : ℚ → ℚ

/-- Integral.multieval at the solver's call sites: one residual integral and
one jacobian integral evaluated over the union of their keys, each key
integrated once for both, missing entries replaced by symbolic zeros, and
the per-key contributions summed along axis 0. -/
def multieval2 (ext : SolverExt) (a : Integral FnV) (b : Integral FnM)
    (args : ArgMap) : Vec × Mat :=
  let keys := ((a.entries.map Prod.fst) ++ (b.entries.map Prod.fst)).dedup
  let rv := keys.map (fun k => ext.integV k ((lookupI k a.entries).getD (zerosFnV a.shape)) args)
  let rm := keys.map (fun k => ext.integM k ((lookupI k b.entries).getD (zerosFnM b.shape)) args)
  (rv.foldr addVec (zeroVec (prodL a.shape)),
   rm.foldr addMat (zeroMat (b.shape.headD 0) ((b.shape.drop 1).headD 0)))

/-- Modelled from the spec: a concrete instance of the external Integrate
contract, a deterministic quadrature rule evaluating the integrand at the
argument values and scaling by a per-key weight, rank 1. -/
def integrateModelV (w : Key → ℚ) (k : Key) (f : FnV) (args : ArgMap) : Vec :=
  smulVec (w k) (evalV args f)

/-- Modelled from the spec: the same concrete Integrate contract, rank 2. -/
def integrateModelM (w : Key → ℚ) (k : Key) (g : FnM) (args : ArgMap) : Mat :=
  (evalM args g).map (smulVec (w k))

/-- Outcome of the driving loop: a converged coefficient vector, the
ModelError raised when the generator stops before tolerance, or the
ModelError raised when maxiter is reached. -/
inductive SolveRes : Type where
  | ok (lhs : Vec)
  | errStopped
  | errMaxiter
deriving DecidableEq

def maxedOut (maxiter : Option ℕ) (inewton : ℕ) : Bool :=
  match maxiter with
  | none => false
  | some m => decide (inewton ≥ m)

/-- Driving loop solve of the source over the finite list of pairs the
generator produced: draw the first pair, then while the residual norm
exceeds the tolerance fail if maxiter is reached, else draw the next pair;
exhaustion of the producer is the generator-stopped ModelError. -/
def solve (tol : ℚ) (maxiter : Option ℕ) : List (Vec × ℚ) → ℕ → SolveRes
  | [], _ => .errStopped
  | p :: rest, inewton =>
      if p.2 > tol then
        if maxedOut maxiter inewton then .errMaxiter
        else solve tol maxiter rest (inewton + 1)
      else .ok p.1

/-- Evaluation oracle of the Newton iterating loop, source lines 342-386:
one joint residual and jacobian evaluation at a trial coefficient vector
through Integral.multieval, plus the external solve, norm, finiteness and
square-root collaborators.  The full newton front end instantiates resjacAt
with the multieval of the symbolic residual and jacobian. -/
structure NewtonFns : Type where
  resjacAt : Vec → Vec × Mat
  solveLin : Mat → Vec → List (Option ℚ) → Vec
  norm : Vec → ℚ
  isfinite : ℚ → Bool
  sqrt : ℚ → ℚ

/-- Tunables and normalized constraint mask of one newton invocation. -/
structure NewtonParams : Type where
  mask : List Bool
  nrelax : ℕ
  minrelax : ℚ
  maxrelax : ℚ
  rebound : ℚ

/-- Zero constraint vector of the Newton update: zero imposed on the fixed
entries, free elsewhere; the NaN sentinel of the source is an Option. -/
def zconsOf (mask : List Bool) : List (Option ℚ) :=
  mask.map (fun m => if m then some (0 : ℚ) else none)

/-- Line-search context of one outer Newton iteration: the accepted iterate,
the full Newton step and the residual norm at the iterate. -/
structure LSCtx : Type where
  lhs : Vec
  dlhs : Vec
  resnorm : ℚ

def lsPoint (c : LSCtx) (relax : ℚ) : Vec := addVec c.lhs (smulVec relax c.dlhs)

/-- Trial evaluation of one relaxation sub-step: residual and jacobian at
lhs plus relax times dlhs. -/
def lsTrial (E : NewtonFns) (c : LSCtx) (relax : ℚ) : Vec × Mat :=
  E.resjacAt (lsPoint c relax)

/-- Residual norm of the trial, restricted to the free entries. -/
def lsNorm (E : NewtonFns) (mask : List Bool) (c : LSCtx) (relax : ℚ) : ℚ :=
  E.norm (freePart mask (lsTrial E c relax).1)

/-- Result of the line search: Diverged terminates the generator, accept
carries the relaxation value together with the residual and jacobian
evaluated at the accepted trial point. -/
inductive LSRes : Type where
  | diverged
  | accept (relax : ℚ) (res : Vec) (jac : Mat)

/-- Body of one non-terminal relaxation sub-step, source lines 361-385: a
non-finite trial norm forces the relaxation estimate to zero, otherwise the
cubic or quadratic line-search model is fitted; inr means the loop breaks
accepting the trial, inl carries the shrunk relaxation into a retry. -/
def lsBody (E : NewtonFns) (P : NewtonParams) (c : LSCtx) (relax : ℚ) : ℚ ⊕ LSRes :=
  let rj := lsTrial E c relax
  let newresnorm := E.norm (freePart P.mask rj.1)
  if ¬ E.isfinite newresnorm then
    Sum.inl (relax * max 0 P.minrelax)
  else
    let r0 := c.resnorm ^ 2
    let d0 := -(2 * r0)
    let r1 := newresnorm ^ 2
    let d1 := 2 * dotQ (freePart P.mask (matvecQ rj.2 c.dlhs)) (freePart P.mask rj.1)
    if r1 ≤ r0 ∧ d1 ≤ 0 then Sum.inr (.accept relax rj.1 rj.2)
    else
      let D := 2 * r0 - 2 * r1 + d0 + d1
      let newrelax :=
        if D > 0 then
          let C := 3 * r1 - 3 * r0 - 2 * d0 - d1
          (E.sqrt (C ^ 2 - 3 * d0 * D) - C) / (3 * D)
        else
          let C := r1 - r0 - d0; -(1 / 2) * d0 / C
      if newrelax > P.maxrelax then Sum.inr (.accept relax rj.1 rj.2)
      else Sum.inl (relax * max newrelax P.minrelax)

/-- Relaxation loop of the source, indexed by the number of sub-steps still
allowed before irelax reaches nrelax.  At the cutoff the step is accepted
unless the trial norm increased, in which case the search diverges. -/
def lineSearch (E : NewtonFns) (P : NewtonParams) (c : LSCtx) : ℕ → ℚ → LSRes
  | 0, relax =>
      let rj := lsTrial E c relax
      if E.norm (freePart P.mask rj.1) > c.resnorm then .diverged
      else .accept relax rj.1 rj.2
  | fuel + 1, relax =>
      match lsBody E P c relax with
      | .inr r => r
      | .inl relax' => lineSearch E P c fuel relax'

/-- Relaxation value with which the sub-step after the given number of
continuing sub-steps starts, none when the loop already exited. -/
def lsRun (E : NewtonFns) (P : NewtonParams) (c : LSCtx) : ℕ → ℚ → Option ℚ
  | 0, relax => some relax
  | fuel + 1, relax =>
      match lsBody E P c relax with
      | .inr _ => none
      | .inl relax' => lsRun E P c fuel relax'

/-- Iterating state of the Newton generator: current iterate, residual and
jacobian evaluated there, and the current relaxation factor. -/
structure NState : Type where
  lhs : Vec
  res : Vec
  jac : Mat
  relax : ℚ

/-- Residual norm of the current state restricted to the free entries. -/
def nResnorm (E : NewtonFns) (P : NewtonParams) (s : NState) : ℚ :=
  E.norm (freePart P.mask s.res)

/-- Line-search context of a state: the Newton step solves the linearized
system under the zero-valued constraints, then is negated. -/
def nCtx (E : NewtonFns) (P : NewtonParams) (s : NState) : LSCtx :=
  ⟨s.lhs, negVec (E.solveLin s.jac s.res (zconsOf P.mask)), nResnorm E P s⟩

/-- One outer Newton iteration after the yield, source lines 351-386: grow
the relaxation by the rebound factor capped at one, run the line search,
and on acceptance move the iterate by relax times dlhs; a diverged search
terminates the generator. -/
def newtonStep (E : NewtonFns) (P : NewtonParams) (s : NState) : Option NState :=
  let c := nCtx E P s
  match lineSearch E P c P.nrelax (min (s.relax * P.rebound) 1) with
  | .diverged => none
  | .accept relax' res' jac' =>
      some ⟨addVec s.lhs (smulVec relax' c.dlhs), res', jac', relax'⟩

def stepN (E : NewtonFns) (P : NewtonParams) : ℕ → NState → Option NState
  | 0, s => some s
  | k + 1, s =>
      match newtonStep E P s with
      | none => none
      | some s' => stepN E P k s'

/-- Pair yielded at a state, source line 350. -/
def newtonYield (E : NewtonFns) (P : NewtonParams) (s : NState) : Vec × ℚ :=
  (s.lhs, nResnorm E P s)

/-- Lazy stream of yields of the iterating Newton generator: the k-th pair,
none once the generator has terminated. -/
def yieldsFrom (E : NewtonFns) (P : NewtonParams) (s : NState) (k : ℕ) :
    Option (Vec × ℚ) :=
  (stepN E P k s).map (newtonYield E P)

/-- Finite prefix of the yields, cut at the given fuel or at generator
termination, whichever comes first. -/
def collectYields (E : NewtonFns) (P : NewtonParams) : ℕ → NState → List (Vec × ℚ)
  | 0, _ => []
  | fuel + 1, s =>
      newtonYield E P s ::
        (match newtonStep E P s with
         | none => []
         | some s' => collectYields E P fuel s')

/-- Constraint normalization at newton entry, source lines 324-330: no
constraint frees every entry, a boolean mask is used as is, and a float
vector imposes its non-NaN values over the initial iterate while its NaN
entries, modelled as none, stay free. -/
def normalizeCons (n : ℕ) (lhs0 : Vec) :
    Option (List Bool ⊕ List (Option ℚ)) → Option (List Bool × Vec)
  | none => some (List.replicate n false, lhs0)
  | some (.inl b) => if b.length = n then some (b, lhs0) else none
  | some (.inr c) =>
      if c.length = n then
        some (c.map Option.isSome, List.zipWith (fun ci li => ci.getD li) c lhs0)
      else none

/-- Data resolved by the entry checks of newton: the resolved target name
and length, the residual length, the normalized mask and initial iterate,
and the jacobian integral. -/
structure NewtonSetup : Type where
  tname : String
  tsize : ℕ
  n : ℕ
  mask : List Bool
  lhs1 : Vec
  jacobian : Integral FnM

/-- Entry checks of newton, source lines 316-332: the target must not be
pre-supplied, must resolve inside the residual with length matching the
residual shape, the optional initial iterate must match the shape, the
constraint is normalized and the jacobian is the residual's derivative.
A none models the assertion or lookup error raised before the first
yield. -/
def newtonPrepare (target : String) (residual : Integral FnV) (lhs0opt : Option Vec)
    (constrain : Option (List Bool ⊕ List (Option ℚ))) (args : ArgMap) :
    Option NewtonSetup :=
  if (lookupArg target args).isSome then none
  else
    (findArgument target [Sum.inl residual]).bind fun t =>
      (match residual.shape with
        | [n] => some n
        | _ => none).bind fun n =>
        if t.2 = n then
          (if (lhs0opt.getD (zeroVec n)).length = n
            then some (lhs0opt.getD (zeroVec n)) else none).bind fun lhs0 =>
            (normalizeCons n lhs0 constrain).bind fun ml =>
              (residual.derivative target).bind fun jacobian =>
                some ⟨t.1, t.2, n, ml.1, ml.2, jacobian⟩
        else none

/-- Newton generator of the source: after the entry checks, if the jacobian
does not contain the target the problem is linear and a single pair, the
direct constrained solve with the fixed entries taken from the initial
iterate and residual norm zero, is yielded; otherwise the iterating machine
runs from the initial iterate with relaxation one.  The outer none models
an error raised during entry checks. -/
def newton (ext : SolverExt) (target : String) (residual : Integral FnV)
    (lhs0opt : Option Vec) (constrain : Option (List Bool ⊕ List (Option ℚ)))
    (nrelax : ℕ) (minrelax maxrelax rebound : ℚ) (args : ArgMap) :
    Option (ℕ → Option (Vec × ℚ)) :=
  match newtonPrepare target residual lhs0opt constrain args with
  | none => none
  | some S =>
    if S.jacobian.contains S.tname S.tsize then
      let E : NewtonFns :=
        ⟨fun x => multieval2 ext residual S.jacobian (args ++ [(target, x)]),
         ext.solveLin, ext.norm, ext.isfinite, ext.sqrt⟩
      let P : NewtonParams := ⟨S.mask, nrelax, minrelax, maxrelax, rebound⟩
      let rj0 := multieval2 ext residual S.jacobian (args ++ [(target, S.lhs1)])
      some (yieldsFrom E P ⟨S.lhs1, rj0.1, rj0.2, 1⟩)
    else
      let rj := multieval2 ext residual S.jacobian (args ++ [(target, zeroVec S.tsize)])
      let cons := List.zipWith (fun m v => if m then some v else none) S.mask S.lhs1
      some (fun k => if k = 0 then some (ext.solveLin rj.2 (negVec rj.1) cons, 0) else none)

/-- Evaluation oracle of the pseudotime loop, source lines 444-450: a joint
residual and jacobian evaluation at an iterate and a timestep, since the
jacobian integral is rebuilt from the inertia term scaled by the inverse
timestep on every pass, plus the external solve and norm. -/
structure PtFns : Type where
  resjacAt : Vec → ℚ → Vec × Mat
  solveLin : Mat → Vec → List (Option ℚ) → Vec
  norm : Vec → ℚ

/-- Iterating state of the pseudotime generator. -/
structure PtState : Type where
  lhs : Vec
  res : Vec
  jac : Mat
  resnorm : ℚ

/-- Timestep used by the step leaving a state, source line 447: the initial
timestep scaled by the ratio of the initial to the current residual norm. -/
def ptTimestepUsed (timestep resnorm0 : ℚ) (s : PtState) : ℚ :=
  timestep * (resnorm0 / s.resnorm)

/-- One pseudotime iteration after the yield, source lines 446-450: move the
iterate by the constrained solve, recompute the timestep from the initial
timestep and the norm ratio, re-evaluate residual and jacobian there. -/
def ptStep (E : PtFns) (mask : List Bool) (timestep resnorm0 : ℚ) (s : PtState) :
    PtState :=
  let lhs' := subVec s.lhs (E.solveLin s.jac s.res (zconsOf mask))
  let thists := ptTimestepUsed timestep resnorm0 s
  let rj := E.resjacAt lhs' thists
  ⟨lhs', rj.1, rj.2, E.norm (freePart mask rj.1)⟩

def ptStateN (E : PtFns) (mask : List Bool) (timestep resnorm0 : ℚ) :
    ℕ → PtState → PtState
  | 0, s => s
  | k + 1, s => ptStateN E mask timestep resnorm0 k (ptStep E mask timestep resnorm0 s)

/-- Pair yielded by the pseudotime generator at a state, source line 445. -/
def ptYield (s : PtState) : Vec × ℚ := (s.lhs, s.resnorm)

/-- Pseudotime generator of the source, lines 423-450: derivatives of the
residual and the inertia are taken first, an optional residual0 is folded
into the residual afterwards, the constraint is normalized as in newton,
and the iterating machine runs from the initial evaluation at the initial
timestep. -/
def pseudotime (ext : SolverExt) (target : String) (residual inertia : Integral FnV)
    (timestep : ℚ) (lhs0 : Vec) (residual0 : Option (Integral FnV))
    (constrain : Option (List Bool ⊕ List (Option ℚ))) (args : ArgMap) :
    Option (ℕ → Vec × ℚ) :=
  if (lookupArg target args).isSome then none
  else
    match residual.derivative target, inertia.derivative target with
    | some jacobian0, some jacobiant =>
      let residual' := match residual0 with
        | some r0 => residual.add r0
        | none => residual
      match residual'.shape with
      | [n] =>
        match findArgument target
            ([Sum.inl residual'] ++ (residual0.map (fun r0 => [Sum.inl r0])).getD []) with
        | none => none
        | some t =>
          if t.2 = n then
            if lhs0.length = n then
              match normalizeCons n lhs0 constrain with
              | none => none
              | some (mask, lhs1) =>
                let E : PtFns :=
                  ⟨fun lhs ts =>
                      multieval2 ext residual' (jacobian0.add (jacobiant.div ts))
                        (args ++ [(target, lhs)]),
                   ext.solveLin, ext.norm⟩
                let rj0 := multieval2 ext residual' (jacobian0.add (jacobiant.div timestep))
                  (args ++ [(target, lhs1)])
                let resnorm0 := ext.norm (freePart mask rj0.1)
                some (fun k =>
                  ptYield (ptStateN E mask timestep resnorm0 k ⟨lhs1, rj0.1, rj0.2, resnorm0⟩))
            else none
          else none
      | _ => none
    | _, _ => none

/-- Finite prefix of a generator stream starting at an index, cut at the
first exhausted position or at the given fuel. -/
def streamPrefixAux (g : ℕ → Option (Vec × ℚ)) : ℕ → ℕ → List (Vec × ℚ)
  | 0, _ => []
  | fuel + 1, i =>
      match g i with
      | none => []
      | some p => p :: streamPrefixAux g fuel (i + 1)

def streamPrefix (g : ℕ → Option (Vec × ℚ)) (fuel : ℕ) : List (Vec × ℚ) :=
  streamPrefixAux g fuel 0

/-- Combined theta-method residual, source lines 494-496: theta times the
residual plus inertia over the timestep at the new state, plus one minus
theta times the residual minus inertia over the timestep with the target
substituted by the previous-state placeholder argument. -/
def thetaResidual (residual inertia : Integral FnV) (theta timestep : ℚ)
    (target target0 : String) (n : ℕ) : Integral FnV :=
  let res0 := (residual.scale theta).add (inertia.div timestep)
  let res1 := (residual.scale (1 - theta)).sub (inertia.div timestep)
  res0.add (res1.replace [(target, FnV.arg target0 n)])

/-- Arguments of one thetamethod invocation.  The fuel field bounds how far
into the inner Newton generator the driving loop looks; target0 models the
fresh previous-state placeholder created as object() in the source. -/
structure ThetaArgs : Type where
  ext : SolverExt
  target : String
  target0 : String
  residual : Integral FnV
  inertia : Integral FnV
  timestep : ℚ
  lhs0 : Vec
  theta : ℚ
  constrain : Option (List Bool ⊕ List (Option ℚ))
  tol : ℚ
  nrelax : ℕ
  minrelax : ℚ
  maxrelax : ℚ
  rebound : ℚ
  args : ArgMap
  fuel : ℕ
  maxiter : Option ℕ

/-- The combined residual an invocation builds once before its loop. -/
def ThetaArgs.res (A : ThetaArgs) : Integral FnV :=
  thetaResidual A.residual A.inertia A.theta A.timestep A.target A.target0 A.lhs0.length

/-- One advancing step of thetamethod, source line 499: run the Newton
generator on the combined residual, starting from and binding the
previous-state placeholder to the previous element, through the driving
loop to tolerance; none models an exception of the step. -/
def thetaStep (A : ThetaArgs) (lhs : Vec) : Option Vec :=
  match newton A.ext A.target A.res (some lhs) A.constrain A.nrelax A.minrelax
      A.maxrelax A.rebound (A.args ++ [(A.target0, lhs)]) with
  | none => none
  | some g =>
      match solve A.tol A.maxiter (streamPrefix g A.fuel) 0 with
      | .ok v => some v
      | _ => none

/-- Lazy sequence of thetamethod, source lines 493-499: the initial
condition is yielded first, unchanged, and every later element applies one
advancing step to its predecessor; a failed step, modelling a raise inside
the generator, ends the sequence. -/
def thetamethod (A : ThetaArgs) : ℕ → Option Vec
  | 0 => some A.lhs0
  | n + 1 => (thetamethod A n).bind (thetaStep A)

/-- impliciteuler of the source: thetamethod with theta forced to one. -/
def impliciteuler (A : ThetaArgs) : ℕ → Option Vec :=
  thetamethod { A with theta := 1 }

/-- Entrywise combination of two optional integrands: present on a key as
soon as one operand is, the symbolic sum when both are. -/
def combineOpt {α : Type} [Add α] : Option α → Option α → Option α
  | some x, some y => some (x + y)
  | some x, none => some x
  | none, o => o

/-- Contract of the external constrained linear solve, spec section 6: the
returned vector has the length of the constraint vector and carries the
imposed value on every fixed entry. -/
def SolveLinFixes (f : Mat → Vec → List (Option ℚ) → Vec) : Prop :=
  ∀ (m : Mat) (r : Vec) (cns : List (Option ℚ)), (f m r cns).length = cns.length ∧
    ∀ i : ℕ, ∀ v : ℚ, cns[i]? = some (some v) → (f m r cns)[i]? = some v

/-- Pointwise contract of the external constrained linear solve at one
application, spec section 6: the result has the constraint's length, fixed
entries carry their imposed value, and every free row of the matrix times
the result reproduces the right-hand side. -/
def solveLinSpecAt (m : Mat) (r : Vec) (cns : List (Option ℚ)) (x : Vec) : Prop :=
  x.length = cns.length ∧
    (∀ i : ℕ, ∀ v : ℚ, cns[i]? = some (some v) → x[i]? = some v) ∧
    (∀ i : ℕ, cns[i]? = some none → (matvecQ m x)[i]? = r[i]?)

/-- Formalization of the claimed cumulative in-place timestep growth of the
pseudotime iterator, written from the claim's words for comparison against
the source behaviour: the initial timestep multiplied by the ratio of the
initial to the current residual norm at every step so far. -/
def claimedCumulativeTimestep (timestep resnorm0 : ℚ) (norms : List ℚ) : ℚ :=
  timestep * (norms.map (fun r => resnorm0 / r)).prod

/-- Concrete pseudotime machine used to compare the source's timestep rule
with the claimed cumulative rule: scalar residual that halves at every
iterate, unit jacobian, identity solve oracle and head norm. -/
def ptCexFns : PtFns :=
  ⟨fun lhs _ => ([(lhs.headD 0 + 2) / 2], [[1]]), fun _ r _ => r, fun v => v.headD 0⟩

/-- Initial state of the comparison run: iterate zero, residual one. -/
def ptCexS0 : PtState := ⟨[0], [1], [[1]], 1⟩

/-- Newton machine oracle whose finiteness test always reports a non-finite
norm, exercising the recovery branch of the line search. -/
def nonfiniteFns : NewtonFns :=
  ⟨fun _ => ([], []), fun _ _ _ => [], fun _ => 0, fun _ => false, fun _ => 0⟩

/-- Small parameter set: no relaxation sub-steps allowed, minrelax one half. -/
def smallPar : NewtonParams := ⟨[], 0, 1 / 2, 9 / 10, 1⟩

/-- Empty line-search context. -/
def emptyCtx : LSCtx := ⟨[], [], 0⟩

/-- Newton machine oracle whose trial residual always has norm two while
the initial state has residual norm one, so every line search that reaches
the relaxation cutoff observes an increased norm. -/
def divergedFns : NewtonFns :=
  ⟨fun _ => ([2], [[1]]), fun _ _ _ => [0], fun v => v.headD 0, fun _ => true, fun _ => 0⟩

/-- Parameters with no relaxation sub-steps allowed before the cutoff. -/
def divergedPar : NewtonParams := ⟨[false], 0, 1 / 10, 9 / 10, 2⟩

/-- Initial Newton state with residual norm one. -/
def divergedS0 : NState := ⟨[0], [1], [[1]], 1⟩

/-- The k-th pair yielded by a newton invocation, none when the invocation
raised during its entry checks or the generator terminated before k. -/
def newtonAt (ext : SolverExt) (target : String) (residual : Integral FnV)
    (lhs0opt : Option Vec) (constrain : Option (List Bool ⊕ List (Option ℚ)))
    (nrelax : ℕ) (minrelax maxrelax rebound : ℚ) (args : ArgMap) (k : ℕ) :
    Option (Vec × ℚ) :=
  match newton ext target residual lhs0opt constrain nrelax minrelax maxrelax
      rebound args with
  | none => none
  | some g => g k

/-- Constraint invariant of the Newton iterating machine: the iterate keeps
the mask's length and every fixed entry holds its imposed value. -/
def ConsInv (P : NewtonParams) (lhs1 : Vec) (s : NState) : Prop :=
  s.lhs.length = P.mask.length ∧
    ∀ i : ℕ, P.mask[i]? = some true → s.lhs[i]? = lhs1[i]?

/-- Concrete external collaborators: unit-weight model quadrature, a dummy
solve oracle returning the imposed value or nine, head norm. -/
def linW : SolverExt :=
  ⟨integrateModelV (fun _ => 1), integrateModelM (fun _ => 1),
   fun _ _ cns => cns.map (fun o => o.getD 9), fun v => v.headD 0,
   fun _ => true, fun _ => 0⟩

/-- Concrete linear residual of length two: the argument plus a constant. -/
def linResW : Integral FnV :=
  Integral.of (FnV.add (FnV.arg "x" 2) (FnV.const [1, 2])) 0 "g"

/-- Setup data that newton's entry checks resolve on linResW with a boolean
constraint mask and initial iterate five and seven. -/
def linSetupW : NewtonSetup :=
  ⟨"x", 2, 2, [true, false], [5, 7],
   ⟨[((0, "g"), FnM.add (FnM.const (idMat 2)) (FnM.const (zeroMat 2 2)))], [2, 2]⟩⟩

/-- Concrete thetamethod invocation used to exercise the sequence law. -/
def thetaW : ThetaArgs :=
  ⟨linW, "x", "x0", linResW, linResW, 1, [0, 0], 1, none, 0, 0, 1 / 10, 9 / 10, 1,
   [], 1, none⟩

/-- The scalar ODE du/dt = -u posed for thetamethod with theta one: residual
and inertia are both the one-dimensional target argument itself, integrated
with unit weight; the external constrained solve is the oracle sl. -/
def thetaC4 (sl : Mat → Vec → List (Option ℚ) → Vec) (u0 dt tol : ℚ) : ThetaArgs :=
  ⟨⟨integrateModelV (fun _ => 1), integrateModelM (fun _ => 1), sl,
    fun v => v.headD 0, fun _ => true, fun _ => 0⟩,
   "u", "u0prev",
   ⟨[((0, "g"), FnV.arg "u" 1)], [1]⟩,
   ⟨[((0, "g"), FnV.arg "u" 1)], [1]⟩,
   dt, [u0], 1, none, tol, 0, 1 / 10, 9 / 10, 1, [], 1, none⟩

/-- Jacobian integral that newton derives for the theta-one residual of the
scalar ODE: all occurrences of the target differentiate to one-by-one
identity or zero blocks. -/
def thetaC4jac (dt : ℚ) : Integral FnM :=
  ⟨[((0, "g"),
     FnM.add
       (FnM.add (FnM.smul 1 (FnM.const (idMat 1)))
         (FnM.smul (1 / dt) (FnM.const (idMat 1))))
       (FnM.add (FnM.smul (1 - 1) (FnM.const (zeroMat 1 1)))
         (FnM.smul (-1) (FnM.smul (1 / dt) (FnM.const (zeroMat 1 1))))))],
   [1, 1]⟩

theorem lookupI_absent {α : Type} (k : Key) :
    ∀ l : List (Key × α), k ∉ l.map Prod.fst → lookupI k l = none := by
  intro l
  induction l with
  | nil => intro _; rfl
  | cons p t ih =>
      intro h
      simp only [List.map_cons, List.mem_cons] at h
      push_neg at h
      rw [lookupI, if_neg (fun e => h.1 e.symm), ih h.2]

theorem lookupI_setI {α : Type} (k k' : Key) (v : α) :
    ∀ l : List (Key × α), lookupI k (setI k' v l) = if k = k' then some v else lookupI k l := by
  intro l
  induction l with
  | nil =>
      by_cases h : k = k'
      · simp only [setI, lookupI, if_pos (h.symm : (k' : Key) = k), if_pos h]
      · simp only [setI, lookupI, if_neg (fun e => h (Eq.symm e)), if_neg h]
  | cons p t ih =>
      by_cases h : p.1 = k'
      · rw [setI, if_pos h]
        by_cases hk : k = k'
        · simp only [lookupI, if_pos (hk.symm : (k' : Key) = k), if_pos hk]
        · simp only [lookupI, if_neg (fun e => hk (Eq.symm e)), if_neg hk,
            if_neg (fun e : p.1 = k => hk (e.symm.trans h))]
      · rw [setI, if_neg h]
        by_cases hp : p.1 = k
        · have hk : ¬ (k = k') := fun e => h (hp.trans e)
          simp only [lookupI, if_pos hp, if_neg hk]
        · by_cases hk : k = k'
          · simp only [lookupI, if_neg hp, if_pos hk, ih]
          · simp only [lookupI, if_neg hp, if_neg hk, ih]

theorem setI_absent {α : Type} (k : Key) (v : α) :
    ∀ l : List (Key × α), lookupI k l = none → setI k v l = l ++ [(k, v)] := by
  intro l
  induction l with
  | nil => intro _; rfl
  | cons p t ih =>
      intro h
      rw [lookupI] at h
      by_cases hp : p.1 = k
      · rw [if_pos hp] at h; exact absurd h (by simp)
      · rw [if_neg hp] at h
        rw [setI, if_neg hp, ih h, List.cons_append]

theorem addFold_lookup {α : Type} [Add α] :
    ∀ (bl : List (Key × α)) (acc : List (Key × α)), (bl.map Prod.fst).Nodup →
      ∀ k : Key, lookupI k (bl.foldl addStep acc)
        = combineOpt (lookupI k acc) (lookupI k bl) := by
  intro bl
  induction bl with
  | nil =>
      intro acc _ k
      cases h : lookupI k acc <;> simp [combineOpt, lookupI, h]
  | cons p t ih =>
      intro acc hnd k
      simp only [List.map_cons, List.nodup_cons] at hnd
      rw [List.foldl_cons, ih _ hnd.2 k]
      by_cases hk : k = p.1
      · subst hk
        have ht : lookupI p.1 t = none := lookupI_absent p.1 t hnd.1
        cases hacc : lookupI p.1 acc with
        | none => simp [addStep, hacc, lookupI_setI, ht, combineOpt, lookupI]
        | some w => simp [addStep, hacc, lookupI_setI, ht, combineOpt, lookupI]
      · have hpk : ¬ (p.1 = k) := fun e => hk e.symm
        cases hacc : lookupI p.1 acc with
        | none => simp [addStep, hacc, lookupI_setI, hk, hpk, lookupI]
        | some w => simp [addStep, hacc, lookupI_setI, hk, hpk, lookupI]

theorem lookupI_append {α : Type} (k : Key) :
    ∀ l1 l2 : List (Key × α), lookupI k (l1 ++ l2)
      = match lookupI k l1 with
        | some v => some v
        | none => lookupI k l2 := by
  intro l1 l2
  induction l1 with
  | nil => rfl
  | cons p t ih =>
      by_cases hp : p.1 = k
      · rw [List.cons_append, lookupI, if_pos hp, lookupI, if_pos hp]
      · rw [List.cons_append, lookupI, if_neg hp, lookupI, if_neg hp, ih]

theorem addFold_ident {α : Type} [Add α] :
    ∀ (bl : List (Key × α)) (acc : List (Key × α)), (bl.map Prod.fst).Nodup →
      (∀ p ∈ bl, lookupI p.1 acc = none) → bl.foldl addStep acc = acc ++ bl := by
  intro bl
  induction bl with
  | nil => intro acc _ _; simp
  | cons p t ih =>
      intro acc hnd habs
      simp only [List.map_cons, List.nodup_cons] at hnd
      have hp : lookupI p.1 acc = none := habs p (by simp)
      have hrec : ∀ q ∈ t, lookupI q.1 (acc ++ [p]) = none := by
        intro q hq
        have h1 : lookupI q.1 acc = none := habs q (List.mem_cons_of_mem _ hq)
        have hqp : ¬ (p.1 = q.1) := fun e => hnd.1 (e ▸ List.mem_map_of_mem Prod.fst hq)
        rw [lookupI_append, h1, lookupI, if_neg hqp]
        rfl
      rw [List.foldl_cons, addStep, hp, setI_absent _ _ _ hp, ih _ hnd.2 hrec,
        List.append_assoc, List.singleton_append]

/-- C6: for Deferred Integrals a and b of equal shape, a + b holds an entry
for every key of either operand, the symbolic sum where both operands have
the key and the present operand's integrand unchanged where only one has
it; and the empty integral of matching shape is the additive identity. -/
theorem claim_integral_add_union {α : Type} [Add α] (a b : Integral α)
    (hshape : a.shape = b.shape)
    (ha : (a.entries.map Prod.fst).Nodup) (hb : (b.entries.map Prod.fst).Nodup) :
    (∀ k : Key, lookupI k (a.add b).entries
        = combineOpt (lookupI k a.entries) (lookupI k b.entries))
    ∧ (Integral.empty b.shape).add b = b := by
  refine ⟨fun k => addFold_lookup b.entries a.entries hb k, ?_⟩
  cases b with
  | mk e s =>
      have h := addFold_ident e [] (by simpa using hb) (fun p _ => rfl)
      simp only [Integral.add, Integral.empty] at *
      simp [h]

theorem claim_integral_add_union_witness :
    (lookupI (1, "h")
        (((⟨[((0, "g"), FnV.const [1]), ((1, "h"), FnV.const [2])], [1]⟩ : Integral FnV).add
          ⟨[((1, "h"), FnV.const [3]), ((2, "j"), FnV.const [4])], [1]⟩).entries)
      = combineOpt (lookupI (1, "h") [((0, "g"), FnV.const [1]), ((1, "h"), FnV.const [2])])
          (lookupI (1, "h") [((1, "h"), FnV.const [3]), ((2, "j"), FnV.const [4])]))
    ∧ (Integral.empty [1]).add
        (⟨[((1, "h"), FnV.const [3]), ((2, "j"), FnV.const [4])], [1]⟩ : Integral FnV)
      = ⟨[((1, "h"), FnV.const [3]), ((2, "j"), FnV.const [4])], [1]⟩ :=
  ⟨(claim_integral_add_union
      ⟨[((0, "g"), FnV.const [1]), ((1, "h"), FnV.const [2])], [1]⟩
      ⟨[((1, "h"), FnV.const [3]), ((2, "j"), FnV.const [4])], [1]⟩
      rfl (by decide) (by decide)).1 (1, "h"),
   (claim_integral_add_union
      ⟨[((0, "g"), FnV.const [1]), ((1, "h"), FnV.const [2])], [1]⟩
      ⟨[((1, "h"), FnV.const [3]), ((2, "j"), FnV.const [4])], [1]⟩
      rfl (by decide) (by decide)).2⟩

theorem findP_append {γ : Type} (p : γ → Bool) :
    ∀ l1 l2 : List γ, List.find? p (l1 ++ l2)
      = match List.find? p l1 with
        | some x => some x
        | none => List.find? p l2 := by
  intro l1 l2
  induction l1 with
  | nil => rfl
  | cons a t ih =>
      cases hp : p a with
      | true => rw [List.cons_append, List.find?_cons_of_pos _ hp,
          List.find?_cons_of_pos _ hp]
      | false => rw [List.cons_append, List.find?_cons_of_neg _ (by simp [hp]),
          List.find?_cons_of_neg _ (by simp [hp]), ih]

theorem findArgV_eq_find (name : String) :
    ∀ f : FnV, findArgV name f
      = (argsOfV f).find? (fun p => decide (p.1 = name)) := by
  intro f
  induction f with
  | const v => rfl
  | arg s n =>
      by_cases h : s = name
      · simp [findArgV, argsOfV, h]
      · simp [findArgV, argsOfV, h]
  | add a b iha ihb =>
      rw [show findArgV name (FnV.add a b)
          = (match findArgV name a with
             | some x => some x
             | none => findArgV name b) from rfl,
        show argsOfV (FnV.add a b) = argsOfV a ++ argsOfV b from rfl,
        findP_append, iha, ihb]
      cases List.find? (fun p => decide (p.1 = name)) (argsOfV a) <;> rfl
  | smul cq a iha => exact iha
  | mul a b iha ihb =>
      rw [show findArgV name (FnV.mul a b)
          = (match findArgV name a with
             | some x => some x
             | none => findArgV name b) from rfl,
        show argsOfV (FnV.mul a b) = argsOfV a ++ argsOfV b from rfl,
        findP_append, iha, ihb]
      cases List.find? (fun p => decide (p.1 = name)) (argsOfV a) <;> rfl

theorem findArgVs_eq_find (name : String) :
    ∀ fs : List FnV, findArgVs name fs
      = (fs.flatMap argsOfV).find? (fun p => decide (p.1 = name)) := by
  intro fs
  induction fs with
  | nil => rfl
  | cons f t ih =>
      rw [show (f :: t).flatMap argsOfV = argsOfV f ++ t.flatMap argsOfV from rfl,
        findP_append, findArgVs, findArgV_eq_find, ih]
      cases List.find? (fun p => decide (p.1 = name)) (argsOfV f) <;> rfl

/-- C9 counterexample: an input in which the name u occurs as a Named
Argument with two different declared shapes makes the resolver silently
return the first candidate in traversal order, rather than fail with an
ambiguity error; the embedded resolver has no ambiguity failure at all. -/
theorem claim_find_argument_ambiguous_cex :
    findArgument "u" [Sum.inr (FnV.add (FnV.arg "u" 1) (FnV.arg "u" 2))]
      = some ("u", 1) := by decide

/-- C9 amended: the resolver returns the first Named Argument carrying the
requested name in deterministic traversal order over the flattened inputs,
even when candidates with different declared shapes exist, and reports the
not-found error, modelled by none, exactly when no occurrence exists. -/
theorem claim_find_argument_first (name : String) (funcs : List (Integral FnV ⊕ FnV)) :
    findArgument name funcs
      = ((funcs.flatMap flattenInput).flatMap argsOfV).find?
          (fun p => decide (p.1 = name)) :=
  findArgVs_eq_find name (funcs.flatMap flattenInput)

theorem ptStateN_succ (E : PtFns) (mask : List Bool) (timestep resnorm0 : ℚ) :
    ∀ (n : ℕ) (s : PtState),
      ptStateN E mask timestep resnorm0 (n + 1) s
        = ptStep E mask timestep resnorm0 (ptStateN E mask timestep resnorm0 n s) := by
  intro n
  induction n with
  | zero => intro s; rfl
  | succ m ih => intro s; rw [show ptStateN E mask timestep resnorm0 (m + 1 + 1) s
      = ptStateN E mask timestep resnorm0 (m + 1) (ptStep E mask timestep resnorm0 s)
      from rfl, ih, show ptStateN E mask timestep resnorm0 (m + 1) s
      = ptStateN E mask timestep resnorm0 m (ptStep E mask timestep resnorm0 s) from rfl]

/-- C5 counterexample: a concrete pseudotime run whose residual norms are
one, one half and one quarter; at the third step the source computes the
timestep four from the unchanged initial timestep, while the claimed
cumulative in-place rule would give eight. -/
theorem claim_pseudotime_cumulative_cex :
    ptTimestepUsed 1 1 (ptStateN ptCexFns [false] 1 1 2 ptCexS0) = 4
    ∧ claimedCumulativeTimestep 1 1
        [(ptStateN ptCexFns [false] 1 1 0 ptCexS0).resnorm,
         (ptStateN ptCexFns [false] 1 1 1 ptCexS0).resnorm,
         (ptStateN ptCexFns [false] 1 1 2 ptCexS0).resnorm] = 8
    ∧ ptTimestepUsed 1 1 (ptStateN ptCexFns [false] 1 1 2 ptCexS0)
        ≠ claimedCumulativeTimestep 1 1
            [(ptStateN ptCexFns [false] 1 1 0 ptCexS0).resnorm,
             (ptStateN ptCexFns [false] 1 1 1 ptCexS0).resnorm,
             (ptStateN ptCexFns [false] 1 1 2 ptCexS0).resnorm] := by
  norm_num [ptStateN, ptStep, ptCexFns, ptCexS0, ptTimestepUsed, subVec, zconsOf,
    freePart, claimedCumulativeTimestep]

/-- C5 amended: the pseudotime timestep is recomputed at every step from
the unchanged initial timestep as its product with the ratio of the initial
to the current residual norm; it is not accumulated in place, so the
timestep used by step n is the initial timestep times the single ratio at
the n-th yielded residual norm. -/
theorem claim_pseudotime_timestep (E : PtFns) (mask : List Bool)
    (timestep resnorm0 : ℚ) (s0 : PtState) (n : ℕ) :
    ptTimestepUsed timestep resnorm0 (ptStateN E mask timestep resnorm0 n s0)
      = timestep * (resnorm0 / (ptYield (ptStateN E mask timestep resnorm0 n s0)).2)
    ∧ ptStateN E mask timestep resnorm0 (n + 1) s0
      = ptStep E mask timestep resnorm0 (ptStateN E mask timestep resnorm0 n s0) :=
  ⟨rfl, ptStateN_succ E mask timestep resnorm0 n s0⟩

/-- C8: a non-finite residual norm at a line-search trial neither raises
nor terminates the generator: the relaxation estimate is forced to zero,
floored to minrelax, the relaxation factor is multiplied by minrelax and
the sub-step is retried with the smaller step. -/
theorem claim_newton_nonfinite_retry (E : NewtonFns) (P : NewtonParams) (c : LSCtx)
    (fuel : ℕ) (relax : ℚ)
    (hnf : E.isfinite (lsNorm E P.mask c relax) = false)
    (hmr : 0 ≤ P.minrelax) :
    lsBody E P c relax = Sum.inl (relax * P.minrelax)
    ∧ lineSearch E P c (fuel + 1) relax = lineSearch E P c fuel (relax * P.minrelax) := by
  have hb : lsBody E P c relax = Sum.inl (relax * P.minrelax) := by
    unfold lsBody
    rw [if_pos (by rw [show E.norm (freePart P.mask (lsTrial E c relax).1)
          = lsNorm E P.mask c relax from rfl, hnf]; simp),
      max_eq_right hmr]
  exact ⟨hb, by rw [lineSearch, hb]⟩

theorem claim_newton_nonfinite_retry_witness :
    lsBody nonfiniteFns smallPar emptyCtx 1 = Sum.inl (1 * (1 / 2))
    ∧ lineSearch nonfiniteFns smallPar emptyCtx (0 + 1) 1
        = lineSearch nonfiniteFns smallPar emptyCtx 0 (1 * (1 / 2)) :=
  claim_newton_nonfinite_retry nonfiniteFns smallPar emptyCtx 0 1 rfl (by norm_num [smallPar])

theorem lsRun_lineSearch (E : NewtonFns) (P : NewtonParams) (c : LSCtx) :
    ∀ (fuel : ℕ) (relax r : ℚ), lsRun E P c fuel relax = some r →
      lineSearch E P c fuel relax = lineSearch E P c 0 r := by
  intro fuel
  induction fuel with
  | zero =>
      intro relax r h
      rw [lsRun] at h
      cases h
      rfl
  | succ f ih =>
      intro relax r h
      rw [lsRun] at h
      cases hb : lsBody E P c relax with
      | inr o => rw [hb] at h; exact absurd h (by simp)
      | inl r' =>
          rw [hb] at h
          rw [show lineSearch E P c (f + 1) relax
              = (match lsBody E P c relax with
                 | .inr rr => rr
                 | .inl rx => lineSearch E P c f rx) from rfl, hb]
          exact ih r' r h

theorem stepN_succ (E : NewtonFns) (P : NewtonParams) :
    ∀ (j : ℕ) (s0 : NState), stepN E P (j + 1) s0
      = (stepN E P j s0).bind (fun s => newtonStep E P s) := by
  intro j
  induction j with
  | zero =>
      intro s0
      cases h : newtonStep E P s0 with
      | none => simp [stepN, h]
      | some s1 => simp [stepN, h]
  | succ m ih =>
      intro s0
      cases h : newtonStep E P s0 with
      | none =>
          rw [show stepN E P (m + 1 + 1) s0
              = (match newtonStep E P s0 with
                 | none => none
                 | some s' => stepN E P (m + 1) s') from rfl, h,
            show stepN E P (m + 1) s0
              = (match newtonStep E P s0 with
                 | none => none
                 | some s' => stepN E P m s') from rfl, h]
          rfl
      | some s1 =>
          rw [show stepN E P (m + 1 + 1) s0
              = (match newtonStep E P s0 with
                 | none => none
                 | some s' => stepN E P (m + 1) s') from rfl, h,
            show stepN E P (m + 1) s0
              = (match newtonStep E P s0 with
                 | none => none
                 | some s' => stepN E P m s') from rfl, h]
          exact ih s1

theorem solve_all_above (tol : ℚ) :
    ∀ l : List (Vec × ℚ), (∀ p ∈ l, tol < p.2) →
      ∀ i : ℕ, solve tol none l i = .errStopped := by
  intro l
  induction l with
  | nil => intro _ _; rfl
  | cons p t ih =>
      intro h i
      rw [solve, if_pos (h p (by simp)), show maxedOut none i = false from rfl]
      exact (if_neg (by simp)).trans (ih (fun q hq => h q (List.mem_cons_of_mem _ hq)) (i + 1))

/-- C2: when a newton line-search reaches the nrelax relaxation cutoff and
the newly evaluated residual norm exceeds the previous one, the generator
terminates without raising, yielding nothing further, and the driving loop
fed with the yielded pairs, all above tolerance, fails with the
generator-stopped ModelError. -/
theorem claim_newton_diverged_premature_stop (E : NewtonFns) (P : NewtonParams)
    (s0 sj : NState) (j : ℕ) (tol rN : ℚ)
    (hj : stepN E P j s0 = some sj)
    (hrun : lsRun E P (nCtx E P sj) P.nrelax (min (sj.relax * P.rebound) 1) = some rN)
    (hinc : lsNorm E P.mask (nCtx E P sj) rN > nResnorm E P sj)
    (htol : ∀ p ∈ collectYields E P (j + 1) s0, tol < p.2) :
    newtonStep E P sj = none
    ∧ (∀ k : ℕ, j + 1 ≤ k → yieldsFrom E P s0 k = none)
    ∧ solve tol none (collectYields E P (j + 1) s0) 0 = .errStopped := by
  have hstep : newtonStep E P sj = none := by
    rw [newtonStep, lsRun_lineSearch E P _ _ _ _ hrun, lineSearch,
      if_pos (by exact hinc)]
  have hnone : ∀ d : ℕ, stepN E P (j + 1 + d) s0 = none := by
    intro d
    induction d with
    | zero => rw [stepN_succ, hj]; simpa using hstep
    | succ m ih => rw [show j + 1 + (m + 1) = (j + 1 + m) + 1 from rfl, stepN_succ, ih]; rfl
  refine ⟨hstep, fun k hk => ?_, solve_all_above tol _ htol 0⟩
  obtain ⟨d, rfl⟩ := Nat.exists_eq_add_of_le hk
  rw [yieldsFrom, hnone d]
  rfl

theorem collectYields_one (E : NewtonFns) (P : NewtonParams) (s : NState) :
    collectYields E P 1 s = [newtonYield E P s] := by
  rw [collectYields]
  cases newtonStep E P s <;> rfl

theorem claim_newton_diverged_premature_stop_witness :
    newtonStep divergedFns divergedPar divergedS0 = none
    ∧ solve (1 / 2) none (collectYields divergedFns divergedPar 1 divergedS0) 0
        = SolveRes.errStopped := by
  have h := claim_newton_diverged_premature_stop divergedFns divergedPar divergedS0
      divergedS0 0 (1 / 2) (min (divergedS0.relax * divergedPar.rebound) 1) rfl rfl
      (by norm_num [lsNorm, lsTrial, lsPoint, nCtx, nResnorm, divergedFns, divergedPar,
        divergedS0, freePart, addVec, smulVec, negVec, zconsOf])
      (by rw [collectYields_one]
          intro p hp
          rw [List.mem_singleton] at hp
          subst hp
          norm_num [newtonYield, nResnorm, freePart, divergedFns, divergedPar, divergedS0])
  exact ⟨h.1, h.2.2⟩

theorem normalizeCons_lengths (n : ℕ) (lhs0 : Vec)
    (constrain : Option (List Bool ⊕ List (Option ℚ))) (mask : List Bool) (lhs1 : Vec)
    (h : normalizeCons n lhs0 constrain = some (mask, lhs1)) (hl : lhs0.length = n) :
    mask.length = n ∧ lhs1.length = n := by
  cases constrain with
  | none =>
      rw [normalizeCons] at h
      injection h with h
      injection h with h1 h2
      subst h1; subst h2
      exact ⟨List.length_replicate .., hl⟩
  | some cc =>
      cases cc with
      | inl b =>
          rw [normalizeCons] at h
          by_cases hb : b.length = n
          · rw [if_pos hb] at h
            injection h with h
            injection h with h1 h2
            subst h1; subst h2
            exact ⟨hb, hl⟩
          · rw [if_neg hb] at h; exact absurd h (by simp)
      | inr cv =>
          rw [normalizeCons] at h
          by_cases hc : cv.length = n
          · rw [if_pos hc] at h
            injection h with h
            injection h with h1 h2
            subst h1; subst h2
            refine ⟨by simp [hc], ?_⟩
            rw [List.length_zipWith, hc, hl, min_self]
          · rw [if_neg hc] at h; exact absurd h (by simp)

theorem newtonPrepare_fields (target : String) (residual : Integral FnV)
    (lhs0opt : Option Vec) (constrain : Option (List Bool ⊕ List (Option ℚ)))
    (args : ArgMap) (S : NewtonSetup)
    (hp : newtonPrepare target residual lhs0opt constrain args = some S) :
    S.mask.length = S.n ∧ S.lhs1.length = S.n := by
  unfold newtonPrepare at hp
  by_cases h1 : (lookupArg target args).isSome
  · rw [if_pos h1] at hp; exact absurd hp (by simp)
  · rw [if_neg h1, Option.bind_eq_some] at hp
    obtain ⟨t, ht, hp⟩ := hp
    rw [Option.bind_eq_some] at hp
    obtain ⟨n, hn, hp⟩ := hp
    by_cases h2 : t.2 = n
    · rw [if_pos h2, Option.bind_eq_some] at hp
      obtain ⟨lhs0, hl0, hp⟩ := hp
      rw [Option.bind_eq_some] at hp
      obtain ⟨ml, hml, hp⟩ := hp
      rw [Option.bind_eq_some] at hp
      obtain ⟨jac, hjac, hp⟩ := hp
      injection hp with hp
      subst hp
      by_cases h3 : (lhs0opt.getD (zeroVec n)).length = n
      · rw [if_pos h3] at hl0
        injection hl0 with hl0
        subst hl0
        have hml2 : normalizeCons n (lhs0opt.getD (zeroVec n)) constrain
            = some (ml.1, ml.2) := by rw [hml]
        have hlen := normalizeCons_lengths n _ constrain ml.1 ml.2 hml2 h3
        exact ⟨h2 ▸ hlen.1, h2 ▸ hlen.2⟩
      · rw [if_neg h3] at hl0; exact absurd hl0 (by simp)
    · rw [if_neg h2] at hp; exact absurd hp (by simp)

theorem newton_linear_eq (ext : SolverExt) (target : String) (residual : Integral FnV)
    (lhs0opt : Option Vec) (constrain : Option (List Bool ⊕ List (Option ℚ)))
    (nrelax : ℕ) (minrelax maxrelax rebound : ℚ) (args : ArgMap) (S : NewtonSetup)
    (hp : newtonPrepare target residual lhs0opt constrain args = some S)
    (hc : S.jacobian.contains S.tname S.tsize = false) :
    newton ext target residual lhs0opt constrain nrelax minrelax maxrelax rebound args
      = some (fun k => if k = 0 then
          some (ext.solveLin
            (multieval2 ext residual S.jacobian (args ++ [(target, zeroVec S.tsize)])).2
            (negVec (multieval2 ext residual S.jacobian
              (args ++ [(target, zeroVec S.tsize)])).1)
            (List.zipWith (fun m v => if m then some v else none) S.mask S.lhs1), 0)
          else none) := by
  simp only [newton, hp]
  rw [if_neg (by simp [hc])]

theorem newton_nonlinear_eq (ext : SolverExt) (target : String) (residual : Integral FnV)
    (lhs0opt : Option Vec) (constrain : Option (List Bool ⊕ List (Option ℚ)))
    (nrelax : ℕ) (minrelax maxrelax rebound : ℚ) (args : ArgMap) (S : NewtonSetup)
    (hp : newtonPrepare target residual lhs0opt constrain args = some S)
    (hc : S.jacobian.contains S.tname S.tsize = true) :
    newton ext target residual lhs0opt constrain nrelax minrelax maxrelax rebound args
      = some (yieldsFrom
          ⟨fun x => multieval2 ext residual S.jacobian (args ++ [(target, x)]),
           ext.solveLin, ext.norm, ext.isfinite, ext.sqrt⟩
          ⟨S.mask, nrelax, minrelax, maxrelax, rebound⟩
          ⟨S.lhs1,
           (multieval2 ext residual S.jacobian (args ++ [(target, S.lhs1)])).1,
           (multieval2 ext residual S.jacobian (args ++ [(target, S.lhs1)])).2, 1⟩) := by
  simp only [newton, hp]
  rw [if_pos hc]

/-- C1: for a residual whose jacobian does not contain the target argument,
the newton generator yields exactly one pair and then terminates, the
pair's vector being the direct constrained linear solve of the evaluated
system jac times dlhs equals minus res, with the fixed entries imposed from
the initial iterate, and the pair's residual norm being literally zero. -/
theorem claim_newton_linear_shortcut (ext : SolverExt) (target : String)
    (residual : Integral FnV) (lhs0opt : Option Vec)
    (constrain : Option (List Bool ⊕ List (Option ℚ)))
    (nrelax : ℕ) (minrelax maxrelax rebound : ℚ) (args : ArgMap) (S : NewtonSetup)
    (hp : newtonPrepare target residual lhs0opt constrain args = some S)
    (hc : S.jacobian.contains S.tname S.tsize = false) :
    newton ext target residual lhs0opt constrain nrelax minrelax maxrelax rebound args
      = some (fun k => if k = 0 then
          some (ext.solveLin
            (multieval2 ext residual S.jacobian (args ++ [(target, zeroVec S.tsize)])).2
            (negVec (multieval2 ext residual S.jacobian
              (args ++ [(target, zeroVec S.tsize)])).1)
            (List.zipWith (fun m v => if m then some v else none) S.mask S.lhs1), 0)
          else none) :=
  newton_linear_eq ext target residual lhs0opt constrain nrelax minrelax maxrelax
    rebound args S hp hc

theorem claim_newton_linear_shortcut_witness :
    newton linW "x" linResW (some [5, 7]) (some (Sum.inl [true, false]))
        0 (1 / 10) (9 / 10) 1 []
      = some (fun k => if k = 0 then
          some (linW.solveLin
            (multieval2 linW linResW linSetupW.jacobian ([] ++ [("x", zeroVec linSetupW.tsize)])).2
            (negVec (multieval2 linW linResW linSetupW.jacobian
              ([] ++ [("x", zeroVec linSetupW.tsize)])).1)
            (List.zipWith (fun m v => if m then some v else none)
              linSetupW.mask linSetupW.lhs1), 0)
          else none) :=
  claim_newton_linear_shortcut linW "x" linResW (some [5, 7])
    (some (Sum.inl [true, false])) 0 (1 / 10) (9 / 10) 1 [] linSetupW rfl rfl

theorem newtonStep_consInv (E : NewtonFns) (P : NewtonParams)
    (hs : SolveLinFixes E.solveLin) (lhs1 : Vec) (s s' : NState)
    (h : newtonStep E P s = some s') (hinv : ConsInv P lhs1 s) : ConsInv P lhs1 s' := by
  simp only [newtonStep] at h
  cases hls : lineSearch E P (nCtx E P s) P.nrelax (min (s.relax * P.rebound) 1) with
  | diverged => rw [hls] at h; exact absurd h (by simp)
  | accept relax' res' jac' =>
      rw [hls] at h
      simp only at h
      injection h with h
      subst h
      obtain ⟨hlen, hfix⟩ := hinv
      have hsl := hs s.jac s.res (zconsOf P.mask)
      have hdlen : (nCtx E P s).dlhs.length = P.mask.length := by
        show (negVec (E.solveLin s.jac s.res (zconsOf P.mask))).length = P.mask.length
        rw [negVec, List.length_map, hsl.1, zconsOf, List.length_map]
      constructor
      · simp only [addVec, List.length_zipWith, smulVec, List.length_map, hdlen, hlen,
          min_self]
      · intro i hmi
        have hzc : (zconsOf P.mask)[i]? = some (some 0) := by
          rw [zconsOf, List.getElem?_map _ _ i, hmi]
          rfl
        have hx : (E.solveLin s.jac s.res (zconsOf P.mask))[i]? = some 0 :=
          hsl.2 i 0 hzc
        have hd : (nCtx E P s).dlhs[i]? = some (-0) := by
          show (negVec (E.solveLin s.jac s.res (zconsOf P.mask)))[i]? = some (-0)
          rw [negVec, List.getElem?_map _ _ i, hx]
          rfl
        obtain ⟨a, ha⟩ : ∃ a, s.lhs[i]? = some a := by
          have hi : i < P.mask.length := (List.getElem?_eq_some.mp hmi).1
          exact ⟨_, List.getElem?_eq_getElem (by rw [hlen]; exact hi)⟩
        show (addVec s.lhs (smulVec relax' (nCtx E P s).dlhs))[i]? = lhs1[i]?
        rw [addVec, List.getElem?_zipWith', ha, smulVec, List.getElem?_map _ _ i, hd,
          ← hfix i hmi, ha]
        simp

theorem stepN_consInv (E : NewtonFns) (P : NewtonParams)
    (hs : SolveLinFixes E.solveLin) (lhs1 : Vec) :
    ∀ (k : ℕ) (s s' : NState), stepN E P k s = some s' →
      ConsInv P lhs1 s → ConsInv P lhs1 s' := by
  intro k
  induction k with
  | zero =>
      intro s s' h hinv
      injection h with h
      subst h
      exact hinv
  | succ m ih =>
      intro s s' h hinv
      rw [stepN] at h
      cases hns : newtonStep E P s with
      | none => rw [hns] at h; exact absurd h (by simp)
      | some s1 =>
          rw [hns] at h
          exact ih s1 s' h (newtonStep_consInv E P hs lhs1 s s1 hns hinv)

/-- C3: every iterate yielded by the newton generator keeps every entry
marked fixed by the normalized constraint at its imposed value, in both the
linear shortcut and the iterating branch, given the external solve honours
the fixed entries of its constraint vector. -/
theorem claim_newton_respects_constraints (ext : SolverExt) (target : String)
    (residual : Integral FnV) (lhs0opt : Option Vec)
    (constrain : Option (List Bool ⊕ List (Option ℚ)))
    (nrelax : ℕ) (minrelax maxrelax rebound : ℚ) (args : ArgMap)
    (S : NewtonSetup) (k : ℕ) (lhs : Vec) (rn : ℚ) (i : ℕ)
    (hs : SolveLinFixes ext.solveLin)
    (hp : newtonPrepare target residual lhs0opt constrain args = some S)
    (hk : newtonAt ext target residual lhs0opt constrain nrelax minrelax maxrelax
        rebound args k = some (lhs, rn))
    (hi : S.mask[i]? = some true) :
    lhs[i]? = S.lhs1[i]? := by
  have hlen := newtonPrepare_fields target residual lhs0opt constrain args S hp
  by_cases hc : S.jacobian.contains S.tname S.tsize = true
  · have hng := newton_nonlinear_eq ext target residual lhs0opt constrain nrelax
      minrelax maxrelax rebound args S hp hc
    simp only [newtonAt, hng] at hk
    simp only [yieldsFrom] at hk
    cases hstep : stepN
        ⟨fun x => multieval2 ext residual S.jacobian (args ++ [(target, x)]),
         ext.solveLin, ext.norm, ext.isfinite, ext.sqrt⟩
        ⟨S.mask, nrelax, minrelax, maxrelax, rebound⟩ k
        ⟨S.lhs1,
         (multieval2 ext residual S.jacobian (args ++ [(target, S.lhs1)])).1,
         (multieval2 ext residual S.jacobian (args ++ [(target, S.lhs1)])).2, 1⟩ with
    | none => rw [hstep] at hk; exact absurd hk (by simp)
    | some sfin =>
        rw [hstep] at hk
        have hinv : ConsInv ⟨S.mask, nrelax, minrelax, maxrelax, rebound⟩ S.lhs1 sfin :=
          stepN_consInv _ _ hs S.lhs1 k _ sfin hstep
            ⟨by rw [hlen.2, hlen.1], fun j _ => rfl⟩
        have hk2 : newtonYield
            ⟨fun x => multieval2 ext residual S.jacobian (args ++ [(target, x)]),
             ext.solveLin, ext.norm, ext.isfinite, ext.sqrt⟩
            ⟨S.mask, nrelax, minrelax, maxrelax, rebound⟩ sfin = (lhs, rn) :=
          Option.some.inj (by exact hk)
        have hlhs : lhs = sfin.lhs := (congrArg Prod.fst hk2).symm
        rw [hlhs]
        exact hinv.2 i hi
  · rw [Bool.not_eq_true] at hc
    have hng := newton_linear_eq ext target residual lhs0opt constrain nrelax
      minrelax maxrelax rebound args S hp hc
    simp only [newtonAt, hng] at hk
    by_cases hk0 : k = 0
    · subst hk0
      rw [if_pos rfl] at hk
      injection hk with hk
      have hlhs : lhs = ext.solveLin
          (multieval2 ext residual S.jacobian (args ++ [(target, zeroVec S.tsize)])).2
          (negVec (multieval2 ext residual S.jacobian
            (args ++ [(target, zeroVec S.tsize)])).1)
          (List.zipWith (fun m v => if m then some v else none) S.mask S.lhs1) :=
        (congrArg Prod.fst hk).symm
      obtain ⟨a, ha⟩ : ∃ a, S.lhs1[i]? = some a := by
        have hil : i < S.mask.length := (List.getElem?_eq_some.mp hi).1
        exact ⟨_, List.getElem?_eq_getElem (by rw [hlen.2, ← hlen.1]; exact hil)⟩
      have hcons : (List.zipWith (fun m v => if m then some v else none)
          S.mask S.lhs1)[i]? = some (some a) := by
        rw [List.getElem?_zipWith', hi, ha]
        rfl
      rw [hlhs, (hs _ _ _).2 i a hcons, ha]
    · rw [if_neg hk0] at hk
      exact absurd hk (by simp)

theorem claim_newton_respects_constraints_witness :
    (([5] : Vec))[0]? = (([5] : Vec))[0]? :=
  claim_newton_respects_constraints linW "y"
    (Integral.of (FnV.mul (FnV.arg "y" 1) (FnV.arg "y" 1)) 0 "g")
    (some [3]) (some (Sum.inr [some 5])) 0 (1 / 10) (9 / 10) 1 []
    ⟨"y", 1, 1, [true], [5],
     ⟨[((0, "g"), FnM.add (FnM.dmul (FnV.arg "y" 1) (FnM.const (idMat 1)))
        (FnM.dmul (FnV.arg "y" 1) (FnM.const (idMat 1))))], [1, 1]⟩⟩
    0 [5] 0 0
    (by
      intro m r cns
      refine ⟨by simp [linW], fun i v h => ?_⟩
      simp only [linW]
      rw [List.getElem?_map _ _ i, h]
      rfl)
    rfl rfl rfl

/-- C10: the first element yielded by thetamethod is the initial
coefficient vector itself, produced unconditionally before any Newton
solve, and every subsequent element is the result of driving the Newton
generator on the combined residual to tolerance, started from and with the
previous-state placeholder bound to the immediately preceding element. -/
theorem claim_thetamethod_sequence (A : ThetaArgs) :
    thetamethod A 0 = some A.lhs0
    ∧ ∀ (n : ℕ) (v : Vec), thetamethod A n = some v →
        thetamethod A (n + 1)
          = (match newton A.ext A.target A.res (some v) A.constrain A.nrelax A.minrelax
                A.maxrelax A.rebound (A.args ++ [(A.target0, v)]) with
             | none => none
             | some g =>
                 match solve A.tol A.maxiter (streamPrefix g A.fuel) 0 with
                 | .ok w => some w
                 | _ => none) := by
  refine ⟨rfl, fun n v h => ?_⟩
  rw [show thetamethod A (n + 1) = (thetamethod A n).bind (thetaStep A) from rfl, h]
  show thetaStep A v = _
  rw [thetaStep]

theorem addVec_comm : ∀ a b : Vec, addVec a b = addVec b a := by
  intro a
  induction a with
  | nil => intro b; cases b <;> rfl
  | cons x t ih =>
      intro b
      cases b with
      | nil => rfl
      | cons y u =>
          simp only [addVec, List.zipWith_cons_cons] at *
          rw [add_comm, ih u]

theorem addVec_assoc : ∀ a b cv : Vec, addVec (addVec a b) cv = addVec a (addVec b cv) := by
  intro a
  induction a with
  | nil => intro b cv; rfl
  | cons x t ih =>
      intro b cv
      cases b with
      | nil => rfl
      | cons y u =>
          cases cv with
          | nil => rfl
          | cons z w =>
              simp only [addVec, List.zipWith_cons_cons] at *
              rw [add_assoc, ih u w]

theorem addVec_left_comm : ∀ a b cv : Vec, addVec a (addVec b cv) = addVec b (addVec a cv) := by
  intro a b cv
  rw [← addVec_assoc, addVec_comm a b, addVec_assoc]

theorem addVec_zero_zero : ∀ n : ℕ, addVec (zeroVec n) (zeroVec n) = zeroVec n := by
  intro n
  induction n with
  | zero => rfl
  | succ m ih =>
      show addVec ((0 : ℚ) :: zeroVec m) ((0 : ℚ) :: zeroVec m) = (0 : ℚ) :: zeroVec m
      rw [addVec, List.zipWith_cons_cons, add_zero]
      exact congrArg _ ih

theorem sumVecs_zeros (n : ℕ) :
    ∀ l : List Vec, (∀ v ∈ l, v = zeroVec n) → sumVecs n l = zeroVec n := by
  intro l
  induction l with
  | nil => intro _; rfl
  | cons v t ih =>
      intro h
      show addVec v (sumVecs n t) = zeroVec n
      rw [h v (by simp), ih (fun w hw => h w (List.mem_cons_of_mem _ hw))]
      exact addVec_zero_zero n

theorem lookupI_self {α : Type} :
    ∀ l : List (Key × α), (l.map Prod.fst).Nodup →
      ∀ p ∈ l, lookupI p.1 l = some p.2 := by
  intro l
  induction l with
  | nil => intro _ p hp; cases hp
  | cons q t ih =>
      intro hnd p hp
      simp only [List.map_cons, List.nodup_cons] at hnd
      rcases List.mem_cons.mp hp with h | h
      · subst h; rw [lookupI, if_pos rfl]
      · have hq : ¬ (q.1 = p.1) := fun e => hnd.1 (e ▸ List.mem_map_of_mem Prod.fst h)
        rw [lookupI, if_neg hq]
        exact ih hnd.2 p h

theorem multievalCol {α : Type} (integ : Key → α → ArgMap → Vec)
    (zeroOf : List ℕ → α) (Is : List (Integral α)) (args : ArgMap) (i : ℕ)
    (I : Integral α) (hi : Is[i]? = some I) :
    ∀ ks : List Key,
      ((ks.map (fun k => Is.map (fun J =>
          integ k ((lookupI k J.entries).getD (zeroOf J.shape)) args))).foldr
        (List.zipWith addVec) (Is.map (fun J => zeroVec (prodL J.shape))))[i]?
      = some (sumVecs (prodL I.shape)
          (ks.map (fun k => integ k ((lookupI k I.entries).getD (zeroOf I.shape)) args))) := by
  intro ks
  induction ks with
  | nil =>
      simp only [List.map_nil, List.foldr_nil, sumVecs]
      rw [List.getElem?_map _ _ i, hi]
      rfl
  | cons k t ih =>
      simp only [List.map_cons, List.foldr_cons]
      rw [List.getElem?_zipWith', List.getElem?_map _ _ i, hi, ih]
      rfl

/-- C7: for every family of Deferred Integrals and shared argument map, the
batched multieval, which unions the key sets, integrates each key once for
all integrands together and sums the per-integral contributions, returns
for each integral exactly the value that evaluating it separately with eval
returns, provided the integral's keys are unique and integrating its
symbolic zeros yields the zero array. -/
theorem claim_multieval_batching {α : Type} (integ : Key → α → ArgMap → Vec)
    (zeroOf : List ℕ → α) (Is : List (Integral α)) (args : ArgMap) (i : ℕ)
    (I : Integral α)
    (hi : Is[i]? = some I)
    (hnd : (I.entries.map Prod.fst).Nodup)
    (hzero : ∀ k : Key, integ k (zeroOf I.shape) args = zeroVec (prodL I.shape)) :
    (Integral.multievalList integ zeroOf Is args)[i]?
      = some (Integral.eval integ I args) := by
  have hm : Integral.multievalList integ zeroOf Is args
      = (((Is.flatMap fun J => J.entries.map Prod.fst).dedup).map
          (fun k => Is.map (fun J =>
            integ k ((lookupI k J.entries).getD (zeroOf J.shape)) args))).foldr
          (List.zipWith addVec) (Is.map fun J => zeroVec (prodL J.shape)) := rfl
  rw [hm, multievalCol integ zeroOf Is args i I hi]
  have hIm : I ∈ Is := by
    obtain ⟨hlt, hEq⟩ := List.getElem?_eq_some.mp hi
    exact hEq ▸ List.getElem_mem hlt
  have hsub : (I.entries.map Prod.fst) ⊆ (Is.flatMap fun J => J.entries.map Prod.fst).dedup :=
    fun k hk => List.mem_dedup.mpr (List.mem_flatMap.mpr ⟨I, hIm, hk⟩)
  have hkeysnd : ((Is.flatMap fun J => J.entries.map Prod.fst).dedup).Nodup :=
    List.nodup_dedup _
  have hdisj : (I.entries.map Prod.fst).Disjoint
      (((Is.flatMap fun J => J.entries.map Prod.fst).dedup).filter
        (fun k => decide (k ∉ I.entries.map Prod.fst))) := by
    intro a ha har
    have := (List.mem_filter.mp har).2
    simp only [decide_eq_true_eq] at this
    exact this ha
  have hperm : ((Is.flatMap fun J => J.entries.map Prod.fst).dedup).Perm
      ((I.entries.map Prod.fst) ++
        (((Is.flatMap fun J => J.entries.map Prod.fst).dedup).filter
          (fun k => decide (k ∉ I.entries.map Prod.fst)))) := by
    refine List.Subperm.antisymm (List.Nodup.subperm hkeysnd ?_) (List.Nodup.subperm ?_ ?_)
    · intro k hk
      by_cases hks : k ∈ I.entries.map Prod.fst
      · exact List.mem_append.mpr (Or.inl hks)
      · exact List.mem_append.mpr (Or.inr (List.mem_filter.mpr ⟨hk, by simpa using hks⟩))
    · exact List.Nodup.append hnd (hkeysnd.filter _) hdisj
    · intro k hk
      rcases List.mem_append.mp hk with h | h
      · exact hsub h
      · exact (List.mem_filter.mp h).1
  haveI : LeftCommutative addVec := ⟨addVec_left_comm⟩
  rw [show sumVecs (prodL I.shape)
        (((Is.flatMap fun J => J.entries.map Prod.fst).dedup).map
          (fun k => integ k ((lookupI k I.entries).getD (zeroOf I.shape)) args))
      = (((Is.flatMap fun J => J.entries.map Prod.fst).dedup).map
          (fun k => integ k ((lookupI k I.entries).getD (zeroOf I.shape)) args)).foldr
          addVec (zeroVec (prodL I.shape)) from rfl,
    (hperm.map (fun k => integ k ((lookupI k I.entries).getD (zeroOf I.shape)) args)).foldr_eq,
    List.map_append, List.foldr_append]
  have hrest : ((((Is.flatMap fun J => J.entries.map Prod.fst).dedup).filter
        (fun k => decide (k ∉ I.entries.map Prod.fst))).map
        (fun k => integ k ((lookupI k I.entries).getD (zeroOf I.shape)) args)).foldr
        addVec (zeroVec (prodL I.shape)) = zeroVec (prodL I.shape) := by
    refine sumVecs_zeros (prodL I.shape) _ (fun v hv => ?_)
    obtain ⟨k, hk, hkv⟩ := List.mem_map.mp hv
    have hknot : k ∉ I.entries.map Prod.fst := by
      have := (List.mem_filter.mp hk).2
      simpa using this
    rw [← hkv, lookupI_absent k I.entries hknot]
    exact hzero k
  rw [hrest]
  rw [show Integral.eval integ I args
      = sumVecs (prodL I.shape) (I.entries.map (fun p => integ p.1 p.2 args)) from rfl]
  rw [List.map_map]
  rw [List.map_congr_left (fun p hp => by
    show integ p.1 ((lookupI p.1 I.entries).getD (zeroOf I.shape)) args = integ p.1 p.2 args
    rw [lookupI_self I.entries hnd p hp]
    rfl)]
  rfl

theorem claim_multieval_batching_witness :
    (Integral.multievalList (integrateModelV (fun _ => 1)) zerosFnV
        [⟨[((0, "g"), FnV.const [2, 3]), ((1, "h"), FnV.const [4, 5])], [2]⟩,
         ⟨[((1, "h"), FnV.const [6, 7])], [2]⟩] [])[0]?
      = some (Integral.eval (integrateModelV (fun _ => 1))
          ⟨[((0, "g"), FnV.const [2, 3]), ((1, "h"), FnV.const [4, 5])], [2]⟩ []) :=
  claim_multieval_batching (integrateModelV (fun _ => 1)) zerosFnV
    [⟨[((0, "g"), FnV.const [2, 3]), ((1, "h"), FnV.const [4, 5])], [2]⟩,
     ⟨[((1, "h"), FnV.const [6, 7])], [2]⟩] [] 0
    ⟨[((0, "g"), FnV.const [2, 3]), ((1, "h"), FnV.const [4, 5])], [2]⟩
    rfl (by decide)
    (fun k => by norm_num [integrateModelV, zerosFnV, evalV, smulVec, zeroVec, prodL,
      List.replicate])

/-- C4: with theta one and the linear scalar ODE whose residual and inertia
are both the target argument itself, the first advancing step of
thetamethod, the element produced after the initial condition, equals the
closed-form backward Euler update u0 divided by one plus the timestep,
provided the external solve satisfies its contract at the one linear system
the step produces. -/
theorem claim_thetamethod_backward_euler
    (sl : Mat → Vec → List (Option ℚ) → Vec) (u0 dt tol : ℚ)
    (hdt : 0 < dt) (htol : 0 ≤ tol)
    (hsl : solveLinSpecAt [[1 + 1 / dt]] [u0 / dt] [none]
        (sl [[1 + 1 / dt]] [u0 / dt] [none])) :
    thetamethod (thetaC4 sl u0 dt tol) 1 = some [u0 / (1 + dt)] := by
  have hdt0 : dt ≠ 0 := ne_of_gt hdt
  have h1 : thetamethod (thetaC4 sl u0 dt tol) 1
      = (match solve tol none
            [(sl (multieval2 (thetaC4 sl u0 dt tol).ext (thetaC4 sl u0 dt tol).res
                  (thetaC4jac dt) [("u0prev", [u0]), ("u", zeroVec 1)]).2
                (negVec (multieval2 (thetaC4 sl u0 dt tol).ext (thetaC4 sl u0 dt tol).res
                  (thetaC4jac dt) [("u0prev", [u0]), ("u", zeroVec 1)]).1)
                [none], 0)] 0 with
         | SolveRes.ok v => some v
         | _ => none) := rfl
  have h2 : (multieval2 (thetaC4 sl u0 dt tol).ext (thetaC4 sl u0 dt tol).res
      (thetaC4jac dt) [("u0prev", [u0]), ("u", zeroVec 1)]).2 = [[1 + 1 / dt]] := by
    norm_num [multieval2, thetaC4, thetaC4jac, ThetaArgs.res, thetaResidual,
      Integral.scale, Integral.add, Integral.div, Integral.sub, Integral.negI,
      Integral.replace, replaceV, addStep, setI, lookupI, integrateModelM, evalM,
      evalV, lookupArg, addMat, addVec, smulVec, zeroVec, zeroMat, idMat, prodL,
      zerosFnM, List.dedup_cons_of_mem, List.dedup_cons_of_not_mem, List.range_succ, List.range_zero,
      List.map_cons, List.map_nil, List.zipWith_cons_cons, List.zipWith_nil_right,
      List.zipWith_nil_left]
  have h3 : negVec (multieval2 (thetaC4 sl u0 dt tol).ext (thetaC4 sl u0 dt tol).res
      (thetaC4jac dt) [("u0prev", [u0]), ("u", zeroVec 1)]).1 = [u0 / dt] := by
    have hfind : List.find? (fun p => decide (p.1 = "u"))
        ([("u0prev", [u0]), ("u", [0])] : ArgMap) = some ("u", [0]) := rfl
    norm_num [hfind, multieval2, thetaC4, thetaC4jac, ThetaArgs.res, thetaResidual,
      Integral.scale, Integral.add, Integral.div, Integral.sub, Integral.negI,
      Integral.replace, replaceV, addStep, setI, lookupI, integrateModelV, evalV,
      lookupArg, addVec, smulVec, negVec, zeroVec, prodL, zerosFnV,
      List.dedup_cons_of_mem, List.dedup_cons_of_not_mem, List.range_succ, List.range_zero,
      List.map_cons, List.map_nil, List.zipWith_cons_cons, List.zipWith_nil_right,
      List.zipWith_nil_left]
    rw [inv_mul_eq_div]
  rw [h1, h2, h3]
  have hsolve : solve tol none [(sl [[1 + 1 / dt]] [u0 / dt] [none], 0)] 0
      = SolveRes.ok (sl [[1 + 1 / dt]] [u0 / dt] [none]) := by
    rw [solve, if_neg (not_lt.mpr htol)]
  rw [hsolve]
  obtain ⟨hlen', hfix', hfree'⟩ := hsl
  obtain ⟨x0, hx⟩ := List.length_eq_one.mp (by rw [hlen']; rfl)
  rw [hx]
  have hfr := hfree' 0 rfl
  rw [hx] at hfr
  simp only [matvecQ, dotQ, List.map_cons, List.map_nil, List.zipWith_cons_cons,
    List.zipWith_nil_right, List.sum_cons, List.sum_nil] at hfr
  rw [List.getElem?_cons_zero, List.getElem?_cons_zero, Option.some.injEq] at hfr
  have h1dt : (1 : ℚ) + dt ≠ 0 := by positivity
  have hx0 : x0 = u0 / (1 + dt) := by
    field_simp at hfr ⊢
    linarith [hfr]
  rw [hx0]

theorem claim_thetamethod_backward_euler_witness :
    thetamethod (thetaC4 (fun _ _ _ => [1 / 2]) 1 1 0) 1 = some [1 / (1 + 1)] :=
  claim_thetamethod_backward_euler (fun _ _ _ => [1 / 2]) 1 1 0 (by norm_num)
    (by norm_num)
    (by
      refine ⟨rfl, fun i v h => ?_, fun i h => ?_⟩
      · rcases i with _ | i
        · exact absurd h (by simp)
        · exact absurd h (by simp)
      · rcases i with _ | i
        · simp only [matvecQ, dotQ]
          norm_num
        · exact absurd h (by simp))

theorem claim_thetamethod_sequence_witness :
    thetamethod thetaW 0 = some thetaW.lhs0
    ∧ thetamethod thetaW (0 + 1)
        = (match newton thetaW.ext thetaW.target thetaW.res (some thetaW.lhs0)
              thetaW.constrain thetaW.nrelax thetaW.minrelax thetaW.maxrelax
              thetaW.rebound (thetaW.args ++ [(thetaW.target0, thetaW.lhs0)]) with
           | none => none
           | some g =>
               match solve thetaW.tol thetaW.maxiter (streamPrefix g thetaW.fuel) 0 with
               | .ok w => some w
               | _ => none) :=
  ⟨(claim_thetamethod_sequence thetaW).1,
   (claim_thetamethod_sequence thetaW).2 0 thetaW.lhs0 rfl⟩

end Nutils
